import Mathlib

/-!
Verification of the prospect template-resolution engine.

The Go source (package prospect) compiles a template string into a tree of
resolver nodes and evaluates the tree against a metadata record.  The
definitions below embed that code shallowly: strings are lists of
characters, Go's `int` is `Int`, and a Go runtime panic during evaluation
is modelled as the `Option` value `none` (a panicking computation produces
no string).  Parse failures are modelled with `Except`; the distinguished
`ParseFail.panicEmpty` outcome stands for the runtime panic that escapes
the parser when it indexes into an empty placeholder body.
-/

namespace Prospect

/-- Strings of the embedded program: lists of characters. -/
abbrev Str := List Char

/-- strings.Split(s, "/"): split on the separator, keeping empty pieces;
the result always has at least one element. -/
def splitSlash : Str → List Str
  | [] => [[]]
  | c :: rest =>
    if c == '/' then [] :: splitSlash rest
    else
      match splitSlash rest with
      | [] => [[c]]
      | h :: t => (c :: h) :: t

/-- strings.Trim(s, "/"): drop separators from both ends. -/
def trimSlash (s : Str) : Str :=
  ((s.dropWhile (· == '/')).reverse.dropWhile (· == '/')).reverse

/-- strings.TrimPrefix(s, "/"): drop one leading separator if present. -/
def trimPrefixSlash : Str → Str
  | '/' :: rest => rest
  | s => s

/-- strings.IndexByte(s, c): index of the first occurrence of `c`. -/
def idxOf? (c : Char) : Str → Option Nat
  | [] => none
  | a :: rest => if a == c then some 0 else (idxOf? c rest).map (· + 1)

/-- strings.Join(parts, "/") over already-split pieces. -/
def intercalateSlash : List Str → Str
  | [] => []
  | [s] => s
  | s :: rest => s ++ '/' :: intercalateSlash rest

/-- The element loop of filepath.Clean: empty and "." pieces are skipped,
".." pops the last kept piece (or is dropped at the root, or kept when
nothing can be popped in a relative path), and every other piece is kept.
The accumulator holds kept pieces in reverse order. -/
def cleanStack (rooted : Bool) : List Str → List Str → List Str
  | stack, [] => stack.reverse
  | stack, c :: cs =>
    if c = [] ∨ c = ['.'] then cleanStack rooted stack cs
    else if c = ['.', '.'] then
      match stack with
      | [] => cleanStack rooted (if rooted then [] else [c]) cs
      | top :: rest =>
        if top = ['.', '.'] then cleanStack rooted (c :: stack) cs
        else cleanStack rooted rest cs
    else cleanStack rooted (c :: stack) cs

/-- Whether a path is rooted (begins with the separator). -/
def rootedOf : Str → Bool
  | c :: _ => c == '/'
  | [] => false

/-- filepath.Clean for slash-separated paths: process the pieces of the
path, then reassemble; an empty result is "/" for a rooted path and "."
otherwise. -/
def clean (s : Str) : Str :=
  match cleanStack (rootedOf s) [] (splitSlash s) with
  | [] => if rootedOf s then ['/'] else ['.']
  | parts => (if rootedOf s then ['/'] else []) ++ intercalateSlash parts

/-- filepath.Dir: everything up to and including the last separator,
cleaned. -/
def dirOf (s : Str) : Str :=
  clean ((s.reverse.dropWhile (· != '/')).reverse)

/-- filepath.Join: skip leading empty elements, join the remainder with
the separator, and clean the result; all-empty input gives the empty
string. -/
def goJoin (elems : List Str) : Str :=
  match elems.dropWhile (fun e => e.isEmpty) with
  | [] => []
  | rest => clean (intercalateSlash rest)

/-- The directory segments addressed by index and slice resolvers:
strings.Split(strings.TrimPrefix(filepath.Dir(file), "/"), "/"). -/
def segmentsOf (file : Str) : List Str :=
  splitSlash (trimPrefixSlash (dirOf file))

/-- Calendar decomposition of the record's acquisition time (the fields of
Go's time.Time that fragment resolution reads).  The day of year is
computed from the calendar date below; the epoch second is carried as a
field. -/
structure AcqTime where
  year : Int
  month : Nat
  day : Nat
  hour : Nat
  minute : Nat
  second : Nat
  unix : Int
deriving Repr, DecidableEq

/-- Gregorian leap-year test, as in Go's time package. -/
def isLeap (y : Int) : Bool := y % 4 == 0 && (y % 100 != 0 || y % 400 == 0)

/-- Days before the first of each month in a non-leap year. -/
def daysBefore : Nat → Nat
  | 1 => 0
  | 2 => 31
  | 3 => 59
  | 4 => 90
  | 5 => 120
  | 6 => 151
  | 7 => 181
  | 8 => 212
  | 9 => 243
  | 10 => 273
  | 11 => 304
  | 12 => 334
  | _ => 0

/-- time.Time.YearDay. -/
def AcqTime.yearDay (t : AcqTime) : Nat :=
  daysBefore t.month + (if isLeap t.year ∧ 2 < t.month then 1 else 0) + t.day

/-- The metadata record (struct Data), restricted to the fields the
resolver reads. -/
structure Data where
  source : Str
  model : Str
  mime : Str
  type : Str
  level : Int
  acqTime : AcqTime
  file : Str
deriving Repr, DecidableEq

/-- Decimal digits of a natural number. -/
def natToStr (n : Nat) : Str := (Nat.repr n).toList

/-- strconv.Itoa. -/
def intToStr (i : Int) : Str :=
  if i < 0 then '-' :: natToStr i.natAbs else natToStr i.toNat

/-- fmt.Sprintf with a %0wd verb, for the non-negative values the code
formats this way. -/
def padZero (w : Nat) (n : Nat) : Str :=
  let s := natToStr n
  List.replicate (w - s.length) '0' ++ s

/-- splitMime: keep the text after the first "/" (only when something
follows it) and before the first ";". -/
def splitMime (mime : Str) : Str :=
  let m := match idxOf? '/' mime with
    | some ix => if ix + 1 < mime.length then mime.drop (ix + 1) else mime
    | none => mime
  match idxOf? ';' m with
  | some ix => m.take ix
  | none => m

/-- strings.isSeparator, the word-boundary test of strings.Title: an ASCII
character is a separator unless it is a letter, a digit or an underscore.
(Non-ASCII characters are modelled as non-separators; Go additionally
treats non-ASCII Unicode spaces as separators, which no claim here
exercises.) -/
def isSeparator (c : Char) : Bool :=
  if c.toNat ≤ 0x7F then
    if (48 ≤ c.toNat ∧ c.toNat ≤ 57) ∨ (97 ≤ c.toNat ∧ c.toNat ≤ 122)
       ∨ (65 ≤ c.toNat ∧ c.toNat ≤ 90) ∨ c = '_' then false else true
  else false

/-- The mapping loop of strings.Title: a character is title-cased exactly
when the previous character (initially a space) is a separator. -/
def goTitleAux : Char → Str → Str
  | _, [] => []
  | prev, c :: rest => (if isSeparator prev then c.toUpper else c) :: goTitleAux c rest

/-- strings.Title. -/
def goTitle (s : Str) : Str := goTitleAux ' ' s

/-- The replace helper of fragment.Resolve:
strings.ReplaceAll(strings.Title(str), " ", "").  Only the space character
is removed, and only after the Title pass. -/
def replaceFmt (s : Str) : Str := (goTitle s).filter (fun c => c != ' ')

/-- strings.ToLower (ASCII case mapping). -/
def toLowerStr (s : Str) : Str := s.map Char.toLower

/-- Value of a decimal digit. -/
def digitVal? (c : Char) : Option Nat :=
  if 48 ≤ c.toNat ∧ c.toNat ≤ 57 then some (c.toNat - 48) else none

/-- Accumulating decimal parse; fails on the first non-digit. -/
def digitsAux : Nat → Str → Option Nat
  | acc, [] => some acc
  | acc, c :: rest =>
    match digitVal? c with
    | some d => digitsAux (acc * 10 + d) rest
    | none => none

/-- A non-empty all-digit string's value. -/
def digitsToNat? : Str → Option Nat
  | [] => none
  | s => digitsAux 0 s

/-- strconv.Atoi: an optional single sign followed by decimal digits, with
the 64-bit range check (an out-of-range value is an error). -/
def atoi (s : Str) : Option Int :=
  let r : Option Int := match s with
    | '+' :: rest => (digitsToNat? rest).map (fun n => (n : Int))
    | '-' :: rest => (digitsToNat? rest).map (fun n => -(n : Int))
    | _ => (digitsToNat? s).map (fun n => (n : Int))
  match r with
  | some i => if -(2 ^ 63) ≤ i ∧ i < 2 ^ 63 then some i else none
  | none => none

/-- isNumber from the source. -/
def isNumber (c : Char) : Bool := decide ('0' ≤ c ∧ c ≤ '9')

/-- isSign from the source. -/
def isSign (c : Char) : Bool := c == '-'

/-- The resolver-node variants (the implementations of the Resolver
interface). -/
inductive Resolver where
  | empty : Resolver
  | path (rs : List Resolver) : Resolver
  | literal (s : Str) : Resolver
  | index (idx : Int) : Resolver
  | slice (b : Int) (e : Int) : Resolver
  | fragment (name : Str) : Resolver
  | compound (rs : List Resolver) : Resolver
deriving Repr

/-- Abnormal outcomes of parsing.  The first three are the error values the
code builds; `panicEmpty` models the runtime panic raised when
parseResolver indexes str[0] of an empty placeholder body.  Either kind of
outcome propagates to the caller of parsing (as an error return, or as the
panic unwinding through it). -/
inductive ParseFail where
  | missingClose : ParseFail
  | emptyPlaceholder : ParseFail
  | badNumber : ParseFail
  | panicEmpty : ParseFail
deriving Repr, DecidableEq

/-- parseResolver: classify a placeholder body as fragment, index or
slice.  The body is indexed at position 0 unconditionally, so an empty
body panics. -/
def parseResolver (s : Str) : Except ParseFail Resolver :=
  match s with
  | [] => .error .panicEmpty
  | c :: _ =>
    if !(isNumber c || isSign c) then .ok (.fragment s)
    else
      match idxOf? ':' s with
      | none =>
        match atoi s with
        | some n => .ok (.index n)
        | none => .error .badNumber
      | some x =>
        match atoi (s.take x) with
        | none => .error .badNumber
        | some b =>
          match atoi (s.drop (x + 1)) with
          | none => .error .badNumber
          | some e => .ok (.slice b e)

/-- Any index idxOf? reports lies inside the string. -/
theorem idxOf?_lt_length {c : Char} :
    ∀ {s : Str} {i : Nat}, idxOf? c s = some i → i < s.length := by
  intro s
  induction s with
  | nil => intro i h; simp [idxOf?] at h
  | cons a rest ih =>
    intro i h
    simp only [idxOf?] at h
    split at h
    · cases h
      exact Nat.succ_pos _
    · cases hr : idxOf? c rest with
      | none => rw [hr] at h; simp at h
      | some j =>
        rw [hr] at h
        simp at h
        have := ih hr
        simp only [List.length_cons]
        omega

/-- The scanning loop of parse(): find the next "{", emit the preceding
text as a literal, locate the matching "}", parse the body, and continue
after it.  As in the source, `start` is relative to the current scan
position while `e` is relative to the "{", and the empty-placeholder test
compares the two directly. -/
def parseCompAux (s : Str) : Except ParseFail (List Resolver) :=
  match hs : idxOf? '{' s with
  | none => .ok (if s.isEmpty then [] else [.literal s])
  | some start =>
    match idxOf? '}' (s.drop start) with
    | none => .error .missingClose
    | some e =>
      if e - start = 1 then .error .emptyPlaceholder
      else
        match parseResolver ((s.drop (start + 1)).take (e - 1)) with
        | .error err => .error err
        | .ok r =>
          match parseCompAux (s.drop (start + e + 1)) with
          | .error err => .error err
          | .ok rest =>
            .ok ((if (s.take start).isEmpty then [] else [.literal (s.take start)]) ++ r :: rest)
termination_by s.length
decreasing_by
  simp only [List.length_drop]
  have := idxOf?_lt_length hs
  omega

/-- parse(): a template component becomes one resolver; a single scanned
node is used directly, anything else is wrapped in a compound node. -/
def parseComp (s : Str) : Except ParseFail Resolver :=
  match parseCompAux s with
  | .error e => .error e
  | .ok [r] => .ok r
  | .ok rs => .ok (.compound rs)

/-- The component loop of ParseResolver. -/
def parseComps : List Str → Except ParseFail (List Resolver)
  | [] => .ok []
  | p :: ps =>
    match parseComp p with
    | .error e => .error e
    | .ok r =>
      match parseComps ps with
      | .error e => .error e
      | .ok rs => .ok (r :: rs)

/-- ParseResolver: the empty template is the empty resolver; otherwise trim
separators, split into components, parse each, and assemble a path node. -/
def ParseResolver (s : Str) : Except ParseFail Resolver :=
  if s.isEmpty then .ok .empty
  else
    match parseComps (splitSlash (trimSlash s)) with
    | .error e => .error e
    | .ok rs => .ok (.path rs)

/-- index.Resolve: the segment at the (0-based) index when the index is
below the segment count; the empty string when it is not.  The lower bound
is never checked, so a negative index reaches the segment access and
panics. -/
def indexResolve (i : Int) (d : Data) : Option Str :=
  let xs := segmentsOf d.file
  if i < (xs.length : Int) then
    if i < 0 then none
    else some (xs.getD i.toNat [])
  else some []

/-- normalize: negative values have the size added, then the result is
clamped into [0, size]. -/
def normalize (index : Int) (size : Nat) : Int :=
  let index := if index < 0 then (size : Int) + index else index
  if index < 0 then 0
  else if (size : Int) ≤ index then (size : Int)
  else index

/-- slice.Resolve: normalize both bounds; equal bounds index a single
segment (which panics when both bounds normalized to the segment count),
an increasing pair joins the segments in between, and a decreasing pair
gives the empty string. -/
def sliceResolve (b e : Int) (d : Data) : Option Str :=
  let xs := segmentsOf d.file
  let nb := normalize b xs.length
  let ne' := normalize e xs.length
  if ne' = nb then
    if nb < (xs.length : Int) then some (xs.getD nb.toNat []) else none
  else if nb < ne' then some (goJoin ((xs.drop nb.toNat).take (ne' - nb).toNat))
  else some []

/-- The default branch of fragment.Resolve: a keyword that is not in the
table but parses as an integer is itself treated as a path, and its own
directory segments are indexed at the parsed value minus one; a value of
zero therefore indexes position -1 and panics.  A keyword that does not
parse resolves to the empty string. -/
def fragmentDefault (name : Str) : Option Str :=
  match atoi name with
  | none => some []
  | some n =>
    let xs := segmentsOf name
    let x := n - 1
    if x < (xs.length : Int) then
      if x < 0 then none
      else some (xs.getD x.toNat [])
    else some []

/-- fragment.Resolve: case-insensitive dispatch over the keyword table,
falling through to the numeric default branch. -/
def fragmentResolve (name : Str) (d : Data) : Option Str :=
  let low := toLowerStr name
  if low = "run".toList then some d.source
  else if low = "level".toList then some (intToStr d.level)
  else if low = "source".toList then some (replaceFmt d.source)
  else if low = "model".toList then some (replaceFmt d.model)
  else if low = "mime".toList ∨ low = "format".toList then some (replaceFmt (splitMime d.mime))
  else if low = "type".toList then some (replaceFmt d.type)
  else if low = "year".toList then some (intToStr d.acqTime.year)
  else if low = "doy".toList then some (padZero 3 d.acqTime.yearDay)
  else if low = "month".toList then some (padZero 2 d.acqTime.month)
  else if low = "day".toList then some (padZero 2 d.acqTime.day)
  else if low = "hour".toList then some (padZero 2 d.acqTime.hour)
  else if low = "minute".toList ∨ low = "min".toList then some (padZero 2 d.acqTime.minute)
  else if low = "second".toList ∨ low = "sec".toList then some (padZero 2 d.acqTime.second)
  else if low = "timestamp".toList then some (intToStr d.acqTime.unix)
  else fragmentDefault name

mutual

/-- Resolver evaluation.  `none` models a Go runtime panic during
evaluation; every other outcome is the produced string. -/
def resolve : Resolver → Data → Option Str
  | .empty, _ => some []
  | .path rs, d =>
    match resolveList rs d with
    | some ss => some (goJoin ss)
    | none => none
  | .literal s, _ => some s
  | .index i, d => indexResolve i d
  | .slice b e, d => sliceResolve b e d
  | .fragment n, d => fragmentResolve n d
  | .compound rs, d =>
    match resolveList rs d with
    | some ss => some ss.flatten
    | none => none

/-- Evaluation of a child list, in order; a panicking child aborts the
whole evaluation. -/
def resolveList : List Resolver → Data → Option (List Str)
  | [], _ => some []
  | r :: rs, d =>
    match resolve r d with
    | none => none
    | some s =>
      match resolveList rs d with
      | none => none
      | some ss => some (s :: ss)

end

/-- Pattern: the configuration facade; `resolver` is the embedded
interface value, `none` being Go's nil. -/
structure Pattern where
  resolver : Option Resolver
deriving Repr

/-- Pattern.Set: parse, and assign the new tree only when parsing
succeeded.  The second component is the abnormal outcome handed back to
the caller (the returned error, or the panic unwinding through Set). -/
def Pattern.set (p : Pattern) (s : Str) : Pattern × Option ParseFail :=
  match ParseResolver s with
  | .ok r => ({ resolver := some r }, none)
  | .error e => (p, some e)

/-- Resolution through the pattern's embedded interface value; a call on a
nil interface panics. -/
def Pattern.resolve (p : Pattern) (d : Data) : Option Str :=
  match p.resolver with
  | some r => Prospect.resolve r d
  | none => none

/-- Modelled from the spec's words for comparison with the code: the
normalization of a slice bound, written as the clamp of the
count-adjusted value into [0, count]. -/
def specNormalize (i : Int) (n : Nat) : Int :=
  max 0 (min (n : Int) (if i < 0 then i + n else i))

/-- Modelled from the claim's words for comparison with the code:
capitalize the first letter of every whitespace-delimited token, then
delete all whitespace. -/
def specTitleWsAux : Char → Str → Str
  | _, [] => []
  | prev, c :: rest => (if prev.isWhitespace then c.toUpper else c) :: specTitleWsAux c rest

/-- Modelled from the claim's words: whitespace-token capitalization
followed by whitespace removal. -/
def specTitleWs (s : Str) : Str := (specTitleWsAux ' ' s).filter (fun c => !c.isWhitespace)

/-- Double separators: true when the string nowhere contains "//". -/
def noDS : Str → Bool
  | [] => true
  | [_] => true
  | a :: b :: rest => !(a == '/' && b == '/') && noDS (b :: rest)

/-- A sample acquisition time, 2024-03-05T07:08:09Z. -/
def exTime : AcqTime := ⟨2024, 3, 5, 7, 8, 9, 1709622489⟩

/-- A sample record whose File has directory segments a, b, c. -/
def exData : Data :=
  { source := "main unit".toList, model := "flight model".toList,
    mime := "image/png;base64".toList, type := "high rate data".toList,
    level := 1, acqTime := exTime, file := "/a/b/c/d.dat".toList }

/-- A sample record whose File has the single directory segment a. -/
def ex1 : Data :=
  { source := [], model := [], mime := [], type := [], level := 0,
    acqTime := exTime, file := "/a/b.dat".toList }

/-- A record with a hyphenated Source, exercising the word-boundary rule
of strings.Title. -/
def c9Data : Data :=
  { source := "foo-bar".toList, model := [], mime := [], type := [],
    level := 0, acqTime := exTime, file := [] }

/-- A record with every string field empty (the date fields carry the
sample time). -/
def c8Data : Data :=
  { source := [], model := [], mime := [], type := [], level := 0,
    acqTime := exTime, file := [] }

/-- The tree the date template parses to. -/
def c8Tree : Resolver :=
  .path [.fragment ("year".toList), .fragment ("doy".toList),
    .compound [.fragment ("month".toList), .literal ['-'], .fragment ("day".toList)]]

/-- The code's normalize agrees with the spec's add-then-clamp description. -/
theorem normalize_eq_spec (i : Int) (n : Nat) : normalize i n = specNormalize i n := by
  unfold normalize specNormalize
  dsimp only
  omega

/-- Indexing below the length yields the default-free element. -/
theorem get?_eq_some_getD {l : List Str} {n : Nat} (h : n < l.length) :
    l.get? n = some (l.getD n []) := by
  induction l generalizing n with
  | nil => simp at h
  | cons a t ih =>
    cases n with
    | zero => rfl
    | succ m =>
      have hm : m < t.length := by simpa using h
      simpa [List.get?, List.getD] using ih hm

/-- Indexing at or beyond the length yields nothing. -/
theorem get?_eq_none_of_le {l : List Str} {n : Nat} (h : l.length ≤ n) :
    l.get? n = none :=
  List.get?_eq_none.mpr h

/-- A normalized slice bound is never negative. -/
theorem specNormalize_nonneg (i : Int) (n : Nat) : 0 ≤ specNormalize i n := by
  unfold specNormalize; omega

/-- A normalized slice bound never exceeds the count. -/
theorem specNormalize_le (i : Int) (n : Nat) : specNormalize i n ≤ (n : Int) := by
  unfold specNormalize; omega

/-- C1: refuted as stated; evidence for the code bug.  The template
"{1:1}" parses successfully, yet resolving it against a record whose File
"/a/b.dat" has a single directory segment makes both slice bounds
normalize to the segment count 1 and the code index one past the end of
the segment list: resolution panics (produces no string) instead of
degrading to the empty string. -/
theorem c1_resolution_panics :
    ParseResolver ("{1:1}".toList) = .ok (.path [.slice 1 1])
    ∧ resolve (.path [.slice 1 1]) ex1 = none := by
  constructor
  · simp [ParseResolver, parseComps, parseComp, parseCompAux, splitSlash, trimSlash, idxOf?,
      parseResolver, isNumber, isSign, atoi, digitsToNat?, digitsAux, digitVal?]
  · rfl

/-- C2: refuted as stated; evidence for the code bug.  The template
"{-1}" parses to a negative index, but index.Resolve checks only the
upper bound, so the segment access xs[-1] panics for the record with File
"/a/b/c/d.dat" instead of returning "c"; the non-negative in-range case
behaves as claimed ("{0}" gives "a"). -/
theorem c2_negative_index_panics :
    ParseResolver ("{-1}".toList) = .ok (.path [.index (-1)])
    ∧ resolve (.path [.index (-1)]) exData = none
    ∧ resolve (.index 0) exData = some ("a".toList) := by
  refine ⟨?_, rfl, rfl⟩
  simp [ParseResolver, parseComps, parseComp, parseCompAux, splitSlash, trimSlash, idxOf?,
    parseResolver, isNumber, isSign, atoi, digitsToNat?, digitsAux, digitVal?]

/-- C3 counterexample: for the record with File "/a/b.dat" (one directory
segment) the slice bounds 5 and 7 both normalize to the same value (the
segment count), yet Resolve does not return the single segment at that
position: there is none, and evaluation panics (produces no string). -/
theorem c3_counterexample :
    normalize 5 (segmentsOf ex1.file).length = normalize 7 (segmentsOf ex1.file).length
    ∧ resolve (.slice 5 7) ex1 = none :=
  ⟨rfl, rfl⟩

/-- C3 amended: each bound is normalized by adding the segment count when
negative and clamping into [0, count]; when the normalized bounds are
equal, Resolve returns the single segment at that position when one
exists and panics when the common value is the count itself; when a < b
it returns the segments [a, b) joined by filepath.Join; when a > b it
returns the empty string. -/
theorem c3_slice_characterization (b e : Int) (d : Data) :
    resolve (.slice b e) d =
      (let xs := segmentsOf d.file
       let nb := specNormalize b xs.length
       let ne' := specNormalize e xs.length
       if ne' = nb then xs.get? nb.toNat
       else if nb < ne' then some (goJoin ((xs.drop nb.toNat).take (ne' - nb).toNat))
       else some []) := by
  show sliceResolve b e d = _
  unfold sliceResolve
  dsimp only
  rw [normalize_eq_spec, normalize_eq_spec]
  by_cases h1 : specNormalize e (segmentsOf d.file).length
      = specNormalize b (segmentsOf d.file).length
  · rw [if_pos h1, if_pos h1]
    have h0 : 0 ≤ specNormalize b (segmentsOf d.file).length := specNormalize_nonneg _ _
    have hle : specNormalize b (segmentsOf d.file).length ≤ ((segmentsOf d.file).length : Int) :=
      specNormalize_le _ _
    by_cases h2 : specNormalize b (segmentsOf d.file).length < ((segmentsOf d.file).length : Int)
    · rw [if_pos h2, get?_eq_some_getD (by omega)]
    · rw [if_neg h2, Eq.comm]
      exact get?_eq_none_of_le (by omega)
  · rw [if_neg h1, if_neg h1]

/-- C4: refuted as stated; evidence for the code bug.  An empty
placeholder at the start of a component is reported as the claimed parse
error, but an empty placeholder after literal text ("ab{}") slips past
the misaligned end-start comparison and parsing panics (parseResolver
indexes position 0 of an empty body) instead of returning the
empty-placeholder error. -/
theorem c4_interior_empty_placeholder_panics :
    ParseResolver ("ab{}".toList) = .error .panicEmpty
    ∧ ParseResolver ("{}".toList) = .error .emptyPlaceholder := by
  constructor
  · simp [ParseResolver, parseComps, parseComp, parseCompAux, splitSlash, trimSlash, idxOf?,
      parseResolver]
  · simp [ParseResolver, parseComps, parseComp, parseCompAux, splitSlash, trimSlash, idxOf?]

/-- C5 counterexample: a Pattern on which no template was ever configured
holds a nil resolver, and resolving through it panics — it does not
return the empty string. -/
theorem c5_counterexample :
    Pattern.resolve { resolver := none } exData ≠ some [] := by
  decide

/-- C5 amended: resolving a Pattern that was never successfully
configured dereferences the nil embedded resolver and panics (produces no
string); only after the empty template has been configured does Resolve
return the empty string for every record. -/
theorem c5_nil_vs_empty_template (d : Data) :
    Pattern.resolve { resolver := none } d = none
    ∧ Pattern.resolve (Pattern.set { resolver := none } []).1 d = some [] :=
  ⟨rfl, rfl⟩

/-- C6: Set parses first and assigns only on success, so a failed parse
returns the parse error, leaves the held tree untouched and leaves every
subsequent resolution unchanged, while a successful parse replaces the
tree with the newly parsed one. -/
theorem c6_set_failure_atomic (p : Pattern) (s : Str) :
    (∀ err, ParseResolver s = .error err →
      Pattern.set p s = (p, some err)
      ∧ ∀ d, (Pattern.set p s).1.resolve d = p.resolve d)
    ∧ ∀ r, ParseResolver s = .ok r →
      Pattern.set p s = ({ resolver := some r }, none) := by
  constructor
  · intro err h
    constructor
    · simp [Pattern.set, h]
    · intro d
      simp [Pattern.set, h]
  · intro r h
    simp [Pattern.set, h]

/-- C6 witness: configuring the failing template "{}" on a pattern
holding a literal resolver returns the empty-placeholder error, keeps the
pattern intact and leaves resolution unchanged. -/
theorem c6_witness :
    Pattern.set { resolver := some (.literal ['x']) } ("{}".toList)
      = ({ resolver := some (.literal ['x']) }, some .emptyPlaceholder)
    ∧ Pattern.resolve
        (Pattern.set { resolver := some (.literal ['x']) } ("{}".toList)).1 exData
      = Pattern.resolve { resolver := some (.literal ['x']) } exData := by
  have hp : ParseResolver ("{}".toList) = .error .emptyPlaceholder := by
    simp [ParseResolver, parseComps, parseComp, parseCompAux, splitSlash, trimSlash, idxOf?]
  have h := c6_set_failure_atomic { resolver := some (.literal ['x']) } ("{}".toList)
  exact ⟨(h.1 .emptyPlaceholder hp).1, (h.1 .emptyPlaceholder hp).2 exData⟩

/-- C7: refuted as stated; evidence for the code bug.  A placeholder text
beginning with "+" reaches the fragment default branch; "+0" parses as
the non-negative integer 0, whose 1-based access indexes position -1 of
the text's own directory segments and panics instead of returning the
empty string.  A non-numeric unknown keyword resolves to the empty
string, and "+1" shows the 1-based self-path lookup of the claim's
positive part. -/
theorem c7_numeric_fragment_zero_panics :
    ParseResolver ("{+0}".toList) = .ok (.path [.fragment ("+0".toList)])
    ∧ resolve (.path [.fragment ("+0".toList)]) exData = none
    ∧ resolve (.fragment ("bogus".toList)) exData = some []
    ∧ resolve (.fragment ("+1".toList)) exData = some (".".toList) := by
  refine ⟨?_, rfl, rfl, rfl⟩
  simp [ParseResolver, parseComps, parseComp, parseCompAux, splitSlash, trimSlash, idxOf?,
    parseResolver, isNumber, isSign]

/-- The date tree reads only the acquisition time of the record. -/
theorem c8_acq_only (d₁ d₂ : Data) (h : d₁.acqTime = d₂.acqTime) :
    resolve c8Tree d₁ = resolve c8Tree d₂ := by
  obtain ⟨s1, m1, mm1, t1, l1, a1, f1⟩ := d₁
  obtain ⟨s2, m2, mm2, t2, l2, a2, f2⟩ := d₂
  cases h
  rfl

/-- C8: the date template parses to the expected tree, and for every
record acquired at 2024-03-05T07:08:09Z it resolves to "2024/065/03-05"
(unpadded year, 3-digit day of the leap year, 2-digit month and day). -/
theorem c8_date_template (d : Data) (h : d.acqTime = exTime) :
    ParseResolver ("{year}/{doy}/{month}-{day}".toList) = .ok c8Tree
    ∧ resolve c8Tree d = some ("2024/065/03-05".toList) := by
  constructor
  · simp [ParseResolver, parseComps, parseComp, parseCompAux, splitSlash, trimSlash, idxOf?,
      parseResolver, isNumber, isSign, c8Tree]
  · rw [c8_acq_only d c8Data (by rw [h]; rfl)]
    rfl

/-- C8 witness: the date template resolved against a concrete record
carrying the sample acquisition time. -/
theorem c8_witness : resolve c8Tree c8Data = some ("2024/065/03-05".toList) :=
  (c8_date_template c8Data rfl).2

/-- C9 counterexample: with Source = "foo-bar" the source fragment
resolves to "Foo-Bar" — the letter after the hyphen is capitalized — and
not to the whitespace-token formatting "Foo-bar" the claim describes. -/
theorem c9_counterexample :
    resolve (.fragment ("source".toList)) c9Data ≠ some (specTitleWs c9Data.source) := by
  decide

/-- C9 amended: the source, model, mime/format and type fragments format
their field with strings.Title followed by removal of space characters:
every character that follows a separator (any character that is not a
letter, digit or underscore — punctuation included) is uppercased
regardless of case, and only the plain space is deleted (other whitespace
is kept); run returns Source verbatim.  The concrete cases pin the quirk
down. -/
theorem c9_title_formatting (d : Data) :
    resolve (.fragment ("source".toList)) d = some (replaceFmt d.source)
    ∧ resolve (.fragment ("run".toList)) d = some d.source
    ∧ resolve (.fragment ("model".toList)) d = some (replaceFmt d.model)
    ∧ resolve (.fragment ("mime".toList)) d = some (replaceFmt (splitMime d.mime))
    ∧ resolve (.fragment ("format".toList)) d = some (replaceFmt (splitMime d.mime))
    ∧ resolve (.fragment ("type".toList)) d = some (replaceFmt d.type)
    ∧ replaceFmt ("main unit".toList) = "MainUnit".toList
    ∧ replaceFmt ("foo-bar".toList) = "Foo-Bar".toList
    ∧ replaceFmt ("mIxEd cAsE".toList) = "MIxEdCAsE".toList
    ∧ replaceFmt ['a', '\t', 'b'] = ['A', '\t', 'B'] :=
  ⟨rfl, rfl, rfl, rfl, rfl, rfl, rfl, rfl, rfl, rfl⟩

/-- Splitting never returns an empty piece list. -/
theorem splitSlash_ne_nil (s : Str) : splitSlash s ≠ [] := by
  cases s with
  | nil => simp [splitSlash]
  | cons c rest =>
    simp only [splitSlash]
    by_cases hc : c == '/'
    · simp [hc]
    · simp only [hc, if_neg]
      cases h : splitSlash rest with
      | nil => simp
      | cons a t => simp

/-- No piece of a split contains the separator. -/
theorem splitSlash_no_slash : ∀ (s : Str), ∀ p ∈ splitSlash s, ∀ c ∈ p, c ≠ '/' := by
  intro s
  induction s with
  | nil => intro p hp c hc; simp [splitSlash] at hp; subst hp; simp at hc
  | cons a rest ih =>
    intro p hp c hc
    simp only [splitSlash] at hp
    by_cases ha : a == '/'
    · rw [if_pos ha] at hp
      rcases List.mem_cons.mp hp with h | h
      · subst h; simp at hc
      · exact ih p h c hc
    · rw [if_neg (by simp [ha])] at hp
      cases hr : splitSlash rest with
      | nil => exact absurd hr (splitSlash_ne_nil rest)
      | cons q t =>
        rw [hr] at hp
        rcases List.mem_cons.mp hp with h | h
        · subst h
          rcases List.mem_cons.mp hc with h2 | h2
          · subst h2; intro he; subst he; simp at ha
          · exact ih q (by rw [hr]; exact List.mem_cons_self q t) c h2
        · exact ih p (by rw [hr]; exact List.mem_cons_of_mem q h) c hc

/-- Splitting distributes over a separator-append. -/
theorem splitSlash_append (xs ys : Str) :
    splitSlash (xs ++ '/' :: ys) = splitSlash xs ++ splitSlash ys := by
  induction xs with
  | nil => simp [splitSlash]
  | cons a rest ih =>
    show splitSlash (a :: (rest ++ '/' :: ys)) = _
    simp only [splitSlash]
    rw [ih]
    by_cases ha : a == '/'
    · simp [ha]
    · simp only [ha, if_neg, Bool.false_eq_true, not_false_iff]
      cases hr : splitSlash rest with
      | nil => exact absurd hr (splitSlash_ne_nil rest)
      | cons q t => simp

/-- Splitting an interleaved join yields the pieces of the parts. -/
theorem splitSlash_intercalate : ∀ (l : List Str), l ≠ [] →
    splitSlash (intercalateSlash l) = (l.map (fun p => splitSlash p)).flatten := by
  intro l
  induction l with
  | nil => intro h; exact absurd rfl h
  | cons x rest ih =>
    intro _
    cases rest with
    | nil => simp [intercalateSlash]
    | cons y t =>
      show splitSlash (x ++ '/' :: intercalateSlash (y :: t)) = _
      rw [splitSlash_append, ih (by simp)]
      simp



/-- A non-nil list is not empty. -/
theorem isEmpty_false_of_ne_nil {c : Str} (hc : c ≠ []) : c.isEmpty = false := by
  cases c with
  | nil => exact absurd rfl hc
  | cons a t => rfl

/-- The clean loop ignores empty pieces. -/
theorem cleanStack_filter (r : Bool) :
    ∀ (cs : List Str) (st : List Str),
      cleanStack r st (cs.filter (fun c => !c.isEmpty)) = cleanStack r st cs := by
  intro cs
  induction cs with
  | nil => intro st; rfl
  | cons c cs ih =>
    intro st
    by_cases hc : c = []
    · subst hc
      have e1 : (([] : Str) :: cs).filter (fun c => !c.isEmpty) = cs.filter (fun c => !c.isEmpty) := by
        simp [List.filter]
      have e2 : cleanStack r st ([] :: cs) = cleanStack r st cs := by
        simp [cleanStack]
      rw [e1, e2]
      exact ih st
    · have e1 : (c :: cs).filter (fun c => !c.isEmpty) = c :: cs.filter (fun c => !c.isEmpty) := by
        simp [List.filter, isEmpty_false_of_ne_nil hc]
      rw [e1]
      by_cases hd : c = ['.']
      · subst hd
        have e2 : ∀ l, cleanStack r st (['.'] :: l) = cleanStack r st l := by
          intro l; simp [cleanStack]
        rw [e2, e2]
        exact ih st
      · by_cases hdd : c = ['.', '.']
        · subst hdd
          cases st with
          | nil =>
            have e2 : ∀ l, cleanStack r ([] : List Str) (['.', '.'] :: l)
                = cleanStack r (if r then [] else [['.', '.']]) l := by
              intro l; simp [cleanStack]
            rw [e2, e2]
            exact ih _
          | cons top rest =>
            by_cases ht : top = ['.', '.']
            · subst ht
              have e2 : ∀ l, cleanStack r (['.', '.'] :: rest) (['.', '.'] :: l)
                  = cleanStack r (['.', '.'] :: ['.', '.'] :: rest) l := by
                intro l; simp [cleanStack]
              rw [e2, e2]
              exact ih _
            · have e2 : ∀ l, cleanStack r (top :: rest) (['.', '.'] :: l)
                  = cleanStack r rest l := by
                intro l; simp [cleanStack, ht]
              rw [e2, e2]
              exact ih _
        · have e2 : ∀ l, cleanStack r st (c :: l) = cleanStack r (c :: st) l := by
            intro l; simp [cleanStack, hc, hd, hdd]
          rw [e2, e2]
          exact ih _



/-- Dropping empty parts only removes empty pieces from the flattened split. -/
theorem flatten_map_filter (l : List Str) :
    ((l.filter (fun s => !s.isEmpty)).map (fun p => splitSlash p)).flatten.filter
        (fun c => !c.isEmpty)
      = (l.map (fun p => splitSlash p)).flatten.filter (fun c => !c.isEmpty) := by
  induction l with
  | nil => rfl
  | cons s l ih =>
    by_cases hs : s = []
    · subst hs
      have e1 : (([] : Str) :: l).filter (fun s => !s.isEmpty) = l.filter (fun s => !s.isEmpty) := by
        simp [List.filter]
      rw [e1, ih]
      show _ = (splitSlash [] ++ (l.map (fun p => splitSlash p)).flatten).filter (fun c => !c.isEmpty)
      rw [List.filter_append]
      simp [splitSlash]
    · have e1 : (s :: l).filter (fun s => !s.isEmpty) = s :: l.filter (fun s => !s.isEmpty) := by
        simp [List.filter, isEmpty_false_of_ne_nil hs]
      rw [e1]
      show (splitSlash s ++ _).filter _ = (splitSlash s ++ _).filter _
      rw [List.filter_append, List.filter_append, ih]

/-- An interleaved join starts with its first part. -/
theorem intercalate_cons_append (x : Str) (rest : List Str) :
    ∃ t, intercalateSlash (x :: rest) = x ++ t := by
  cases rest with
  | nil => exact ⟨[], (List.append_nil x).symm⟩
  | cons y t => exact ⟨'/' :: intercalateSlash (y :: t), rfl⟩

/-- Rootedness is decided by the first component. -/
theorem rootedOf_append {x : Str} (t : Str) (hx : x ≠ []) :
    rootedOf (x ++ t) = rootedOf x := by
  cases x with
  | nil => exact absurd rfl hx
  | cons c x' => rfl

/-- An interleaved join is rooted exactly when its first part is. -/
theorem rootedOf_intercalate_cons {x : Str} (rest : List Str) (hx : x ≠ []) :
    rootedOf (intercalateSlash (x :: rest)) = rootedOf x := by
  obtain ⟨t, ht⟩ := intercalate_cons_append x rest
  rw [ht, rootedOf_append t hx]

/-- Cleaning is unchanged when empty parts are dropped after the first. -/
theorem clean_intercalate_filter {x : Str} (rest : List Str) (hx : x ≠ []) :
    clean (intercalateSlash (x :: rest.filter (fun s => !s.isEmpty)))
      = clean (intercalateSlash (x :: rest)) := by
  unfold clean
  rw [rootedOf_intercalate_cons _ hx, rootedOf_intercalate_cons _ hx]
  rw [splitSlash_intercalate _ (by simp), splitSlash_intercalate _ (by simp)]
  have key : ((x :: rest.filter (fun s => !s.isEmpty)).map (fun p => splitSlash p)).flatten.filter
        (fun c => !c.isEmpty)
      = ((x :: rest).map (fun p => splitSlash p)).flatten.filter (fun c => !c.isEmpty) := by
    show (splitSlash x ++ _).filter _ = (splitSlash x ++ _).filter _
    rw [List.filter_append, List.filter_append, flatten_map_filter]
  rw [← cleanStack_filter (rootedOf x) ((x :: rest.filter (fun s => !s.isEmpty)).map
        (fun p => splitSlash p)).flatten]
  rw [← cleanStack_filter (rootedOf x) ((x :: rest).map (fun p => splitSlash p)).flatten]
  rw [key]

/-- The head surviving dropWhile fails the predicate. -/
theorem dropWhile_head_not {p : Str → Bool} :
    ∀ (l : List Str) {x rest}, l.dropWhile p = x :: rest → p x = false := by
  intro l
  induction l with
  | nil => intro x rest h; simp [List.dropWhile] at h
  | cons a t ih =>
    intro x rest h
    by_cases ha : p a
    · rw [List.dropWhile_cons_of_pos ha] at h
      exact ih h
    · rw [List.dropWhile_cons_of_neg ha] at h
      cases h
      exact Bool.of_not_eq_true ha

/-- Filtering out empties may start after the all-empty prefix. -/
theorem filter_dropWhile_isEmpty (ss : List Str) :
    ss.filter (fun s => !s.isEmpty) = (ss.dropWhile (fun s => s.isEmpty)).filter (fun s => !s.isEmpty) := by
  induction ss with
  | nil => rfl
  | cons a t ih =>
    by_cases ha : a.isEmpty
    · rw [List.dropWhile_cons_of_pos ha]
      have hae : a = [] := by
        cases a with
        | nil => rfl
        | cons h t2 => simp at ha
      subst hae
      rw [show (([] : Str) :: t).filter (fun s => !s.isEmpty) = t.filter (fun s => !s.isEmpty) from by
        simp [List.filter]]
      exact ih
    · rw [List.dropWhile_cons_of_neg ha]

/-- filepath.Join ignores empty elements entirely. -/
theorem goJoin_filter (ss : List Str) :
    goJoin ss = goJoin (ss.filter (fun s => !s.isEmpty)) := by
  unfold goJoin
  cases hl : ss.dropWhile (fun s => s.isEmpty) with
  | nil =>
    have hf : ss.filter (fun s => !s.isEmpty) = [] := by
      rw [filter_dropWhile_isEmpty, hl]
      rfl
    rw [hf]
    rfl
  | cons x rest =>
    have hx : x.isEmpty = false := dropWhile_head_not ss hl
    have hxne : x ≠ [] := by
      cases x with
      | nil => simp at hx
      | cons c t2 => simp
    have hfilter : ss.filter (fun s => !s.isEmpty) = x :: rest.filter (fun s => !s.isEmpty) := by
      rw [filter_dropWhile_isEmpty, hl]
      simp [List.filter, hx]
    rw [hfilter]
    have hdrop2 : (x :: rest.filter (fun s => !s.isEmpty)).dropWhile (fun s => s.isEmpty)
        = x :: rest.filter (fun s => !s.isEmpty) := by
      rw [List.dropWhile_cons_of_neg (by simp [hx])]
    rw [hdrop2]
    exact (clean_intercalate_filter rest hxne).symm



/-- A separator-free string has no doubled separator. -/
theorem noDS_of_slashFree : ∀ (s : Str), (∀ c ∈ s, c ≠ '/') → noDS s = true := by
  intro s
  induction s with
  | nil => intro _; rfl
  | cons a t ih =>
    intro h
    cases t with
    | nil => rfl
    | cons b t' =>
      show (!(a == '/' && b == '/') && noDS (b :: t')) = true
      have ha : a ≠ '/' := h a (by simp)
      have hrest : ∀ c ∈ b :: t', c ≠ '/' := fun c hc => h c (List.mem_cons_of_mem a hc)
      simp [ha, ih hrest]

/-- Prefixing a separator keeps the no-doubled-separator property when the tail is not rooted. -/
theorem noDS_slash_cons {t : Str} (h1 : rootedOf t = false) (h2 : noDS t = true) :
    noDS ('/' :: t) = true := by
  cases t with
  | nil => rfl
  | cons c t' =>
    show (!('/' == '/' && c == '/') && noDS (c :: t')) = true
    have hc : (c == '/') = false := h1
    simp [hc, h2]

/-- Joining a separator-free part onto a clean tail stays free of doubled separators. -/
theorem noDS_append : ∀ (p : Str), p ≠ [] → (∀ c ∈ p, c ≠ '/') →
    ∀ (t : Str), noDS t = true → rootedOf t = false → noDS (p ++ '/' :: t) = true := by
  intro p
  induction p with
  | nil => intro h; exact absurd rfl h
  | cons a p' ih =>
    intro _ hfree t ht hr
    have ha : a ≠ '/' := hfree a (by simp)
    cases p' with
    | nil =>
      show (!(a == '/' && '/' == '/') && noDS ('/' :: t)) = true
      simp [ha, noDS_slash_cons hr ht]
    | cons b p'' =>
      have hb : b ≠ '/' := hfree b (by simp)
      show (!(a == '/' && b == '/') && noDS (b :: (p'' ++ '/' :: t))) = true
      have := ih (by simp) (fun c hc => hfree c (List.mem_cons_of_mem a hc)) t ht hr
      rw [show (b :: p'') ++ '/' :: t = b :: (p'' ++ '/' :: t) from rfl] at this
      simp [ha, this]

/-- An interleaved join of non-empty separator-free parts has no doubled separator and is not rooted. -/
theorem intercalate_noDS : ∀ (parts : List Str),
    (∀ p ∈ parts, p ≠ [] ∧ ∀ c ∈ p, c ≠ '/') →
    noDS (intercalateSlash parts) = true ∧ rootedOf (intercalateSlash parts) = false := by
  intro parts
  induction parts with
  | nil => intro _; exact ⟨rfl, rfl⟩
  | cons p rest ih =>
    intro h
    obtain ⟨hpne, hpfree⟩ := h p (by simp)
    cases rest with
    | nil =>
      constructor
      · exact noDS_of_slashFree p hpfree
      · show rootedOf p = false
        cases p with
        | nil => exact absurd rfl hpne
        | cons c t =>
          have : c ≠ '/' := hpfree c (by simp)
          simpa [rootedOf] using this
    | cons q rest' =>
      have hrest := ih (fun r hr => h r (List.mem_cons_of_mem p hr))
      constructor
      · show noDS (p ++ '/' :: intercalateSlash (q :: rest')) = true
        exact noDS_append p hpne hpfree _ hrest.1 hrest.2
      · show rootedOf (p ++ '/' :: intercalateSlash (q :: rest')) = false
        rw [rootedOf_append _ hpne]
        cases p with
        | nil => exact absurd rfl hpne
        | cons c t =>
          have : c ≠ '/' := hpfree c (by simp)
          simpa [rootedOf] using this

/-- The clean loop only keeps non-empty separator-free pieces. -/
theorem cleanStack_inv (r : Bool) : ∀ (cs : List Str) (st : List Str),
    (∀ p ∈ st, p ≠ [] ∧ ∀ c ∈ p, c ≠ '/') →
    (∀ p ∈ cs, ∀ c ∈ p, c ≠ '/') →
    ∀ p ∈ cleanStack r st cs, p ≠ [] ∧ ∀ c ∈ p, c ≠ '/' := by
  intro cs
  induction cs with
  | nil =>
    intro st hst _ p hp
    show p ≠ [] ∧ _
    have : p ∈ st := by
      have : p ∈ st.reverse := hp
      simpa using this
    exact hst p this
  | cons c cs ih =>
    intro st hst hcs p hp
    have hcfree : ∀ x ∈ c, x ≠ '/' := hcs c (by simp)
    have hcsrest : ∀ p ∈ cs, ∀ x ∈ p, x ≠ '/' := fun p hp => hcs p (List.mem_cons_of_mem c hp)
    by_cases hc : c = [] ∨ c = ['.']
    · rw [show cleanStack r st (c :: cs) = cleanStack r st cs from by
        simp [cleanStack, hc]] at hp
      exact ih st hst hcsrest p hp
    · by_cases hdd : c = ['.', '.']
      · subst hdd
        cases st with
        | nil =>
          rw [show cleanStack r ([] : List Str) (['.', '.'] :: cs)
              = cleanStack r (if r then [] else [['.', '.']]) cs from by
            simp [cleanStack]] at hp
          refine ih _ ?_ hcsrest p hp
          intro q hq
          cases r with
          | true => simp at hq
          | false =>
            simp at hq
            subst hq
            exact ⟨by simp, by intro x hx; rcases List.mem_cons.mp hx with h | h
                               · subst h; decide
                               · simp at h; subst h; decide⟩
        | cons top rest =>
          by_cases ht : top = ['.', '.']
          · subst ht
            rw [show cleanStack r (['.', '.'] :: rest) (['.', '.'] :: cs)
                = cleanStack r (['.', '.'] :: ['.', '.'] :: rest) cs from by
              simp [cleanStack]] at hp
            refine ih _ ?_ hcsrest p hp
            intro q hq
            rcases List.mem_cons.mp hq with h | h
            · subst h
              exact ⟨by simp, by intro x hx; rcases List.mem_cons.mp hx with h2 | h2
                                 · subst h2; decide
                                 · simp at h2; subst h2; decide⟩
            · exact hst q h
          · rw [show cleanStack r (top :: rest) (['.', '.'] :: cs)
                = cleanStack r rest cs from by
              simp [cleanStack, ht]] at hp
            exact ih _ (fun q hq => hst q (List.mem_cons_of_mem top hq)) hcsrest p hp
      · rw [show cleanStack r st (c :: cs) = cleanStack r (c :: st) cs from by
          simp [cleanStack, hc, hdd]] at hp
        refine ih _ ?_ hcsrest p hp
        intro q hq
        rcases List.mem_cons.mp hq with h | h
        · subst h
          refine ⟨?_, hcfree⟩
          intro he
          exact hc (Or.inl he)
        · exact hst q h

/-- A cleaned path never contains a doubled separator. -/
theorem noDS_clean (s : Str) : noDS (clean s) = true := by
  unfold clean
  have hinv := cleanStack_inv (rootedOf s) (splitSlash s) [] (by simp)
    (splitSlash_no_slash s)
  cases hp : cleanStack (rootedOf s) [] (splitSlash s) with
  | nil =>
    cases hr : rootedOf s with
    | true => rfl
    | false => rfl
  | cons p rest =>
    rw [hp] at hinv
    have hparts := intercalate_noDS (p :: rest) hinv
    cases hr : rootedOf s with
    | true =>
      show noDS ('/' :: intercalateSlash (p :: rest)) = true
      exact noDS_slash_cons hparts.2 hparts.1
    | false =>
      show noDS ([] ++ intercalateSlash (p :: rest)) = true
      rw [List.nil_append]
      exact hparts.1

/-- A joined path never contains a doubled separator. -/
theorem noDS_goJoin (ss : List Str) : noDS (goJoin ss) = true := by
  unfold goJoin
  cases hl : ss.dropWhile (fun s => s.isEmpty) with
  | nil => rfl
  | cons x rest => exact noDS_clean _



/-- C10: the path node's result is the filepath.Join of the children's
resolved strings: empty children are dropped without a trace, a leading
empty child contributes no leading separator, the output never contains a
doubled separator, and the cleaning step can make the result differ from
a plain separator-join of the children's outputs. -/
theorem c10_path_join (rs : List Resolver) (d : Data) (ss : List Str)
    (h : resolveList rs d = some ss) :
    resolve (.path rs) d = some (goJoin ss)
    ∧ goJoin ss = goJoin (ss.filter (fun s => !s.isEmpty))
    ∧ goJoin ([] :: ss) = goJoin ss
    ∧ noDS (goJoin ss) = true
    ∧ resolve (.path [.literal ("a".toList), .literal ("..".toList)]) d = some (".".toList)
    ∧ intercalateSlash ["a".toList, "..".toList] ≠ ".".toList := by
  refine ⟨?_, goJoin_filter ss, ?_, noDS_goJoin ss, rfl, by decide⟩
  · show (match resolveList rs d with
      | some ss => some (goJoin ss)
      | none => none) = some (goJoin ss)
    rw [h]
  · show goJoin ([] :: ss) = goJoin ss
    unfold goJoin
    rw [List.dropWhile_cons_of_pos (by rfl)]

/-- C10 witness: a concrete path node with an empty middle child joins to
"a/b" with no doubled separator. -/
theorem c10_witness :
    resolveList [Resolver.literal ("a".toList), Resolver.literal [], Resolver.literal ("b".toList)]
        exData = some ["a".toList, [], "b".toList]
    ∧ resolve (.path [Resolver.literal ("a".toList), Resolver.literal [],
        Resolver.literal ("b".toList)]) exData = some (goJoin ["a".toList, [], "b".toList])
    ∧ goJoin ["a".toList, [], "b".toList] = "a/b".toList
    ∧ noDS (goJoin ["a".toList, [], "b".toList]) = true := by
  have h := c10_path_join
    [Resolver.literal ("a".toList), Resolver.literal [], Resolver.literal ("b".toList)]
    exData ["a".toList, [], "b".toList] (by rfl)
  exact ⟨rfl, h.1, by rfl, h.2.2.2.1⟩

end Prospect
